import Mathlib

/-!
Shallow embedding of the speaker-aligned transcript assembly pipeline of
`server/app/services/pyannote_diarization_service.py`.

Conventions:
* Python floats are modelled by exact rationals (`ℚ`); every comparison the
  source performs on timestamps is modelled by the corresponding exact
  comparison.  Decimal literals of the source (`0.5`, `0.8`, `0.1`, `1.0`,
  `2.0`) become the rationals `1/2`, `4/5`, `1/10`, `1`, `2`.
* Python dicts `{'timestamp': (s, e), 'text': t}` become the structure
  `Chunk`; `{'start': s, 'end': e, 'speaker': k}` becomes `SpkInterval`;
  `{'start': s, 'end': e, 'speaker': k, 'text': t}` becomes `Seg`.
  The source's `end` field is called `stop` here because `end` is a Lean
  keyword.
* `str.split()` (split on whitespace runs, dropping empties) is `pyWords`,
  `str.strip()` is `pyStrip`, `' '.join` is `joinSpace`, `str.lower()` is
  `pyLower` (ASCII, which is all the pipeline's inputs use).
* Recursions that consume a variable number of characters carry a `Nat`
  fuel initialised to the length of the input; every step consumes at least
  one character and one unit of fuel, so the fuel never runs out before the
  input does and the functions are exact models, while staying structurally
  recursive (hence kernel-evaluable).
-/

/- `Rat.add` and friends are `@[irreducible]` in Batteries, which only blocks
the elaborator's reduction (the kernel ignores reducibility); restoring the
default reducibility locally lets `decide` evaluate concrete rationals. -/
attribute [local semireducible] Rat.add Rat.sub Rat.mul Rat.inv

/-- A transcription chunk: the dict `{'timestamp': (start, end), 'text': text}`
of the source.  `stop` models the tuple's second component (`end`). -/
structure Chunk where
  start : ℚ
  stop : ℚ
  text : String
deriving DecidableEq

/-- A diarization interval `{'start': .., 'end': .., 'speaker': ..}`. -/
structure SpkInterval where
  start : ℚ
  stop : ℚ
  speaker : String
deriving DecidableEq

/-- An aligned segment `{'start': .., 'end': .., 'speaker': .., 'text': ..}`. -/
structure Seg where
  start : ℚ
  stop : ℚ
  speaker : String
  text : String
deriving DecidableEq

/-- Worker for `pyWords`: accumulates the current word (reversed) while
scanning; whitespace closes a word, empties are dropped, exactly as Python's
`str.split()` with no separator argument. -/
def pyWordsGo : List Char → List Char → List (List Char)
  | acc, [] => if acc.isEmpty then [] else [acc.reverse]
  | acc, c :: r =>
    if c.isWhitespace then
      if acc.isEmpty then pyWordsGo [] r else acc.reverse :: pyWordsGo [] r
    else
      pyWordsGo (c :: acc) r

/-- Python `text.split()`: whitespace-separated words, empties dropped. -/
def pyWords (s : String) : List String :=
  (pyWordsGo [] s.data).map String.mk

/-- Python `' '.join(ws)`. -/
def joinSpace : List String → String
  | [] => ""
  | [w] => w
  | w :: ws => w ++ " " ++ joinSpace ws

/-- Python `s.strip()`: drop leading and trailing whitespace. -/
def pyStrip (s : String) : String :=
  String.mk (((s.data.dropWhile Char.isWhitespace).reverse.dropWhile
    Char.isWhitespace).reverse)

/-- Python's slice `l[-k:]`.  For `k = 0` the slice `l[-0:] = l[0:]` is the
whole list, not the empty one. -/
def lastSlice (k : Nat) (l : List String) : List String :=
  if k = 0 then l else l.drop (l.length - k)

/-- One iteration of the accumulator loop of `_merge_overlapping_chunks`
(lines 377-396): `merged` is the accumulator, `current` the incoming chunk;
the last accumulated chunk plays the role of `prev`. -/
def mergeStep (merged : List Chunk) (current : Chunk) : List Chunk :=
  match merged.getLast? with
  | none => [current]
  | some prev =>
    if current.start < prev.stop then
      let overlap_duration := prev.stop - current.start
      if overlap_duration > (prev.stop - prev.start) * (1/2) then
        let prev_words := pyWords prev.text
        let current_words := pyWords current.text
        let overlap_words := min 5 prev_words.length
        if lastSlice overlap_words prev_words = current_words.take overlap_words then
          merged.dropLast ++
            [⟨prev.start, current.stop,
              prev.text ++ " " ++ joinSpace (current_words.drop overlap_words)⟩]
        else
          merged ++ [current]
      else
        merged ++ [current]
    else
      merged ++ [current]

/-- `_merge_overlapping_chunks` (lines 370-398): seed the accumulator with
the first chunk, then fold `mergeStep` over the rest. -/
def mergeOverlappingChunks : List Chunk → List Chunk
  | [] => []
  | c :: rest => rest.foldl mergeStep [c]

/-- Ordering of intervals by their `start`, the key of the `sorted(...)` calls
of the source. -/
def startLE (a b : SpkInterval) : Prop := a.start ≤ b.start

instance : DecidableRel startLE := fun a b => inferInstanceAs (Decidable (a.start ≤ b.start))

instance : IsTotal SpkInterval startLE := ⟨fun a b => le_total a.start b.start⟩

instance : IsTrans SpkInterval startLE := ⟨fun _ _ _ h h' => le_trans h h'⟩

/-- The merging loop of `_post_process_diarization` (lines 480-493): `current`
is the interval being grown, the list holds the remaining sorted intervals.
Merging keeps `current.start` and `current.speaker` and sets the end to
`next.stop` (the source builds `Segment(current.start, next.end)`). -/
def smoothLoop : SpkInterval → List SpkInterval → List SpkInterval
  | current, [] => [current]
  | current, next :: rest =>
    if next.speaker = current.speaker ∧ next.start - current.stop < 1 then
      smoothLoop ⟨current.start, next.stop, current.speaker⟩ rest
    else
      current :: smoothLoop next rest

/-- `_post_process_diarization` (lines 466-495): sort by start, then merge
same-speaker neighbours whose gap is below 1.0 s.  The source's `Annotation`
container is modelled as a plain interval list. -/
def postProcessDiarization (l : List SpkInterval) : List SpkInterval :=
  match List.insertionSort startLE l with
  | [] => []
  | first :: rest => smoothLoop first rest

/-- Ordering of aligned segments by `start`, for
`sorted(results, key=lambda x: x['start'])` (line 785). -/
def segLE (a b : Seg) : Prop := a.start ≤ b.start

instance : DecidableRel segLE := fun a b => inferInstanceAs (Decidable (a.start ≤ b.start))

instance : IsTotal Seg segLE := ⟨fun a b => le_total a.start b.start⟩

instance : IsTrans Seg segLE := ⟨fun _ _ _ h h' => le_trans h h'⟩

/-- Insertion-ordered accumulation of `overlap_stats[speaker] += overlap_dur`
(line 567): a Python dict keeps first-insertion order, modelled as an
association list. -/
def addStat (stats : List (String × ℚ)) (spk : String) (d : ℚ) : List (String × ℚ) :=
  if stats.any (fun p => p.1 = spk) then
    stats.map (fun p => if p.1 = spk then (p.1, p.2 + d) else p)
  else
    stats ++ [(spk, d)]

/-- Python's `max(overlap_stats, key=overlap_stats.get)` over the insertion
ordered dict: the first key attaining the maximal value (a later key replaces
the champion only when strictly greater). -/
def pickMax : String × ℚ → List (String × ℚ) → String
  | best, [] => best.1
  | best, p :: rest => if p.2 > best.2 then pickMax p rest else pickMax best rest

/-- The scan of `_find_nearest_speaker` (lines 595-601): `best` starts as
`"SPEAKER_00"` and `minDist` as `float('inf')`, modelled by `none`. -/
def nearestGo (mid : ℚ) : List SpkInterval → String → Option ℚ → String
  | [], best, _ => best
  | s :: rest, best, minDist =>
    let d := |mid - (s.start + s.stop) / 2|
    match minDist with
    | none => nearestGo mid rest s.speaker (some d)
    | some m => if d < m then nearestGo mid rest s.speaker (some d)
                else nearestGo mid rest best (some m)

/-- `_find_nearest_speaker` (lines 589-603). -/
def findNearestSpeaker (start stop : ℚ) (speaker_segments : List SpkInterval) : String :=
  nearestGo ((start + stop) / 2) speaker_segments "SPEAKER_00" none

/-- `_align_whisper_with_diarization` (lines 545-587): zero-duration chunks
are skipped; every speaker interval contributes its positive temporal overlap
to `overlap_stats`; the dominant speaker (or, with no overlap at all, the
nearest one) is attached to the chunk's own time span and text. -/
def alignChunks : List Chunk → List SpkInterval → List Seg
  | [], _ => []
  | c :: rest, speaker_segments =>
    if c.stop - c.start ≤ 0 then alignChunks rest speaker_segments
    else
      let overlap_stats := speaker_segments.foldl (fun st s =>
        let overlap_dur := max 0 (min c.stop s.stop - max c.start s.start)
        if overlap_dur > 0 then addStat st s.speaker overlap_dur else st) []
      let spk := match overlap_stats with
        | [] => findNearestSpeaker c.start c.stop speaker_segments
        | b :: bs => pickMax b bs
      ⟨c.start, c.stop, spk, c.text⟩ :: alignChunks rest speaker_segments

/-- One iteration of `_remove_redundant_segments` (lines 509-541): `cleaned`
is the accumulator, its last element is `prev`.  Rule 1 skips ≥80 %-contained
segments whose lower-cased word set is included in `prev`'s; rule 2 clamps
`current.start` to `prev.stop` when the overlap is a sub-1.0 s drift; finally
only segments longer than 0.1 s are appended. -/
def rrStep (cleaned : List Seg) (current : Seg) : List Seg :=
  match cleaned.getLast? with
  | none => [current]
  | some prev =>
    let overlap_start := max prev.start current.start
    let overlap_end := min prev.stop current.stop
    let overlap_duration := max 0 (overlap_end - overlap_start)
    let current_duration := current.stop - current.start
    if 0 < current_duration ∧ overlap_duration / current_duration > 4/5 ∧
        ∀ w ∈ pyWords current.text.toLower, w ∈ pyWords prev.text.toLower then
      cleaned
    else
      let current' := if current.start < prev.stop ∧ overlap_duration < 1 then
          { current with start := prev.stop } else current
      if current'.stop - current'.start > 1/10 then cleaned ++ [current'] else cleaned

/-- `_remove_redundant_segments` (lines 497-543): the first segment is taken
unconditionally, the rest go through `rrStep`. -/
def removeRedundant : List Seg → List Seg
  | [] => []
  | s :: rest => rest.foldl rrStep [s]

/-- The merging loop of `_merge_consecutive_speakers` (lines 611-634):
consecutive same-speaker segments whose gap is below 2.0 s are folded into
`current`, concatenating text and taking the furthest end. -/
def mergeTurnsLoop : Seg → List Seg → List Seg
  | current, [] => [current]
  | current, next :: rest =>
    if current.speaker = next.speaker ∧ next.start - current.stop < 2 then
      mergeTurnsLoop ⟨current.start, max current.stop next.stop, current.speaker,
        current.text ++ " " ++ next.text⟩ rest
    else
      current :: mergeTurnsLoop next rest

/-- `_merge_consecutive_speakers` (lines 605-635). -/
def mergeConsecutiveSpeakers : List Seg → List Seg
  | [] => []
  | s :: rest => mergeTurnsLoop s rest

/-- The aligned-transcript part of `process_with_speakers` (lines 756-791):
smooth the diarization, align the merged chunks against it, sort by start,
remove redundant segments and merge consecutive same-speaker turns.  The
final presentation step (lines 794-818) maps every segment one-to-one to a
display record and is not part of the interval algebra. -/
def pipeline (chunks : List Chunk) (intervals : List SpkInterval) : List Seg :=
  mergeConsecutiveSpeakers (removeRedundant
    (List.insertionSort segLE
      (alignChunks (mergeOverlappingChunks chunks) (postProcessDiarization intervals))))

/-- The pipeline up to and including the Redundancy Remover (everything the
source runs before `_merge_consecutive_speakers`). -/
def preTurn (chunks : List Chunk) (intervals : List SpkInterval) : List Seg :=
  removeRedundant
    (List.insertionSort segLE
      (alignChunks (mergeOverlappingChunks chunks) (postProcessDiarization intervals)))

/-- Total duration of a chunk list. -/
def sumDurC (l : List Chunk) : ℚ := (l.map fun c => c.stop - c.start).sum

/-- Total duration of a segment list. -/
def sumDurS (l : List Seg) : ℚ := (l.map fun s => s.stop - s.start).sum

/-- Splitter for the separator `"<|"`, the fixed prefix of every timestamp
marker `<\\|(\\d+\\.\\d+)\\|>` of `_parse_whisper_output` (line 417): behaves
like Python's `text.split('<|')` on the character list.  `fuel` is initialised
to the input length; every step consumes at least one character, so the
`fuel = 0` case is only reached on the empty input. -/
def splitMarkerSep : Nat → List Char → List Char → List (List Char)
  | _, acc, [] => [acc.reverse]
  | 0, acc, s => [acc.reverse ++ s]
  | fuel + 1, acc, '<' :: '|' :: r => acc.reverse :: splitMarkerSep fuel [] r
  | fuel + 1, acc, c :: r => splitMarkerSep fuel (c :: acc) r

/-- Given the characters following one `"<|"`, try to read `\\d+\\.\\d+|>`:
on success return the captured `digits.digits` and the remaining text.
`\\d` is ASCII here, which is all Whisper emits. -/
def parseMarkerPiece (p : List Char) : Option (List Char × List Char) :=
  let ds1 := p.takeWhile Char.isDigit
  let r1 := p.dropWhile Char.isDigit
  if ds1.isEmpty then none else
  match r1 with
  | '.' :: r2 =>
    let ds2 := r2.takeWhile Char.isDigit
    let r2d := r2.dropWhile Char.isDigit
    if ds2.isEmpty then none else
    match r2d with
    | '|' :: '>' :: r3 => some (ds1 ++ '.' :: ds2, r3)
    | _ => none
  | _ => none

/-- Reassemble the `"<|"`-separated pieces into the alternating shape that
`re.split(r'<\\|(\\d+\\.\\d+)\\|>', text)` produces: the text before the next
marker, and the list of (captured number, following text) pairs.  A piece
that does not continue into a full marker keeps its `"<|"` literally. -/
def assembleMarkerSplit : List (List Char) → List Char × List (List Char × List Char)
  | [] => ([], [])
  | p :: rest =>
    match parseMarkerPiece p with
    | some (num, after) =>
      let (pre, pairs) := assembleMarkerSplit rest
      ([], (num, after ++ pre) :: pairs)
    | none =>
      let (pre, pairs) := assembleMarkerSplit rest
      ('<' :: '|' :: p ++ pre, pairs)

/-- `re.split(r'<\\|(\\d+\\.\\d+)\\|>', text)` as the source uses it
(line 418): the leading text and the `(timestamp, text)` pairs. -/
def reSplitTimestamps (s : String) : List Char × List (List Char × List Char) :=
  match splitMarkerSep s.data.length [] s.data with
  | [] => (s.data, [])
  | p0 :: ps =>
    let (pre, pairs) := assembleMarkerSplit ps
    (p0 ++ pre, pairs)

/-- Numeric value of a digit string. -/
def digitsToNat (l : List Char) : Nat :=
  l.foldl (fun a c => 10 * a + (c.toNat - 48)) 0

/-- `float(parts[i])` on a captured `digits.digits` string, as an exact
rational. -/
def parseTimestamp (num : List Char) : ℚ :=
  let ds1 := num.takeWhile Char.isDigit
  let ds2 := (num.dropWhile Char.isDigit).drop 1
  (digitsToNat ds1 : ℚ) + (digitsToNat ds2 : ℚ) / (10 : ℚ) ^ ds2.length

/-- Python's substring test `s in t` on character lists (used by the source
as `chunk_text in ".,?!:"`, line 440). -/
def isSubstrCh (s t : List Char) : Bool :=
  t.tails.any (fun suf => s.isPrefixOf suf)

/-- The per-sub-chunk loop of `_parse_whisper_output` (lines 422-452): each
pair gives `start_time` and the chunk text; the end time is the next pair's
timestamp, or `start + 2.0` for the last pair.  A sub-chunk is dropped when
`end <= start`, when its stripped text is empty or a substring of `".,?!:"`,
or when it has more than four words all identical. -/
def buildChunks : List (List Char × List Char) → List Chunk
  | [] => []
  | (num, t) :: rest =>
    let start_time := parseTimestamp num
    let end_time := match rest with
      | (num2, _) :: _ => parseTimestamp num2
      | [] => start_time + 2
    let chunk_text := pyStrip (String.mk t)
    let ws := pyWords chunk_text
    let skip := end_time ≤ start_time ∨ chunk_text = "" ∨
      isSubstrCh chunk_text.data ".,?!:".data = true ∨
      (4 < ws.length ∧ ws.dedup.length = 1)
    (if skip then [] else [⟨start_time, end_time, chunk_text⟩]) ++ buildChunks rest

/-- Scan for the first `"|>"`, the non-greedy end of `re.sub`'s pattern
`<\\|.*?\\|>`; `.` does not cross a newline, so an intervening `'\n'` means
the marker never closes. -/
def findMarkerClose : List Char → Option (List Char)
  | '|' :: '>' :: r => some r
  | '\n' :: _ => none
  | _ :: r => findMarkerClose r
  | [] => none

/-- `re.sub(r'<\\|.*?\\|>', '', text)` (line 456): delete every non-greedy
marker span; an unclosed `"<|"` stays literal.  Fuel as in
`splitMarkerSep`. -/
def stripMarkersGo : Nat → List Char → List Char
  | 0, s => s
  | _ + 1, [] => []
  | fuel + 1, '<' :: '|' :: r =>
    match findMarkerClose r with
    | some r2 => stripMarkersGo fuel r2
    | none => '<' :: stripMarkersGo fuel ('|' :: r)
  | fuel + 1, c :: r => c :: stripMarkersGo fuel r

/-- The cleaned text of the no-chunks fallback (line 456):
`re.sub(r'<\\|.*?\\|>', '', text).strip()`. -/
def cleanTextOf (text : String) : String :=
  pyStrip (String.mk (stripMarkersGo text.data.length text.data))

/-- The repetition-loop pre-check of `_parse_whisper_output` (lines 409-415):
more than ten words whose diversity `len(unique)/len(words)` is below 10 %
(exact-rational reading of the float comparison). -/
def hallucinationLoop (text : String) : Prop :=
  10 < (pyWords text).length ∧
    (pyWords text).dedup.length * 10 < (pyWords text).length

instance (text : String) : Decidable (hallucinationLoop text) :=
  inferInstanceAs (Decidable (_ ∧ _))

/-- `_parse_whisper_output` (lines 400-464), returning the `'chunks'` entry
of its result dict: the repetition pre-check, the timestamped sub-chunk
parse, and the synthetic `(0.0, 2.0, clean_text)` fallback when no sub-chunk
survived but short non-empty text remains. -/
def parseWhisperOutput (text : String) : List Chunk :=
  if hallucinationLoop text then [] else
  let chunks := buildChunks (reSplitTimestamps text).2
  if chunks.isEmpty then
    let clean_text := cleanTextOf text
    if clean_text ≠ "" ∧ clean_text.length < 200 then [⟨0, 2, clean_text⟩] else []
  else chunks

/-- Two adjacent smoothed intervals can no longer be merged: not both the
same speaker and a gap below 1.0 s. -/
def noSmoothMerge (a b : SpkInterval) : Prop :=
  ¬(b.speaker = a.speaker ∧ b.start - a.stop < 1)

/-- Two adjacent merged turns can no longer be folded: not both the same
speaker and a gap below 2.0 s. -/
def noTurnMerge (a b : Seg) : Prop :=
  ¬(a.speaker = b.speaker ∧ b.start - a.stop < 2)

/-- Relation between adjacent survivors of the Redundancy Remover: either
time-monotone, or overlapping by at least one second (the drift clamp only
fires below 1.0 s of overlap). -/
def acceptedApart (a b : Seg) : Prop :=
  a.stop ≤ b.start ∨ 1 ≤ min a.stop b.stop - max a.start b.start

theorem smoothLoop_head : ∀ (l : List SpkInterval) (c : SpkInterval),
    ∃ x, (smoothLoop c l).head? = some x ∧ x.start = c.start ∧ x.speaker = c.speaker := by
  intro l
  induction l with
  | nil => exact fun c => ⟨c, rfl, rfl, rfl⟩
  | cons next rest ih =>
    intro c
    by_cases h : next.speaker = c.speaker ∧ next.start - c.stop < 1
    · rw [smoothLoop, if_pos h]
      exact ih ⟨c.start, next.stop, c.speaker⟩
    · rw [smoothLoop, if_neg h]
      exact ⟨c, rfl, rfl, rfl⟩

theorem smoothLoop_chain'_noMerge : ∀ (l : List SpkInterval) (c : SpkInterval),
    List.Chain' noSmoothMerge (smoothLoop c l) := by
  intro l
  induction l with
  | nil => intro c; rw [smoothLoop]; exact List.chain'_singleton c
  | cons next rest ih =>
    intro c
    by_cases h : next.speaker = c.speaker ∧ next.start - c.stop < 1
    · rw [smoothLoop, if_pos h]; exact ih _
    · rw [smoothLoop, if_neg h]
      refine List.chain'_cons'.mpr ⟨?_, ih next⟩
      intro y hy
      obtain ⟨x, hx, hxs, hxk⟩ := smoothLoop_head rest next
      rw [hx, Option.mem_some_iff] at hy
      subst hy
      intro hcon
      exact h ⟨hxk ▸ hcon.1, by rw [hxs] at hcon; exact hcon.2⟩

theorem smoothLoop_chain'_le : ∀ (l : List SpkInterval) (c : SpkInterval),
    List.Chain' startLE (c :: l) → List.Chain' startLE (smoothLoop c l) := by
  intro l
  induction l with
  | nil => intro c _; rw [smoothLoop]; exact List.chain'_singleton c
  | cons next rest ih =>
    intro c hch
    obtain ⟨hcn, hrest⟩ := List.chain'_cons.mp hch
    by_cases h : next.speaker = c.speaker ∧ next.start - c.stop < 1
    · rw [smoothLoop, if_pos h]
      refine ih _ (List.chain'_cons'.mpr ⟨?_, (List.chain'_cons'.mp hrest).2⟩)
      intro y hy
      exact le_trans hcn ((List.chain'_cons'.mp hrest).1 y hy)
    · rw [smoothLoop, if_neg h]
      refine List.chain'_cons'.mpr ⟨?_, ih next hrest⟩
      intro y hy
      obtain ⟨x, hx, hxs, _⟩ := smoothLoop_head rest next
      rw [hx, Option.mem_some_iff] at hy
      subst hy
      unfold startLE at hcn ⊢
      rw [hxs]
      exact hcn

theorem smoothLoop_id : ∀ (l : List SpkInterval) (c : SpkInterval),
    List.Chain' noSmoothMerge (c :: l) → smoothLoop c l = c :: l := by
  intro l
  induction l with
  | nil => intro c _; rw [smoothLoop]
  | cons next rest ih =>
    intro c hch
    obtain ⟨hcn, hrest⟩ := List.chain'_cons.mp hch
    rw [smoothLoop, if_neg hcn, ih next hrest]

theorem postProcess_sorted (l : List SpkInterval) :
    List.Sorted startLE (postProcessDiarization l) := by
  unfold postProcessDiarization
  have hs : List.Sorted startLE (List.insertionSort startLE l) :=
    List.sorted_insertionSort startLE l
  cases h : List.insertionSort startLE l with
  | nil => exact List.sorted_nil
  | cons a t =>
    rw [h] at hs
    exact List.chain'_iff_pairwise.mp (smoothLoop_chain'_le t a
      (List.chain'_iff_pairwise.mpr hs))

theorem postProcess_chain'_noMerge (l : List SpkInterval) :
    List.Chain' noSmoothMerge (postProcessDiarization l) := by
  unfold postProcessDiarization
  cases List.insertionSort startLE l with
  | nil => exact List.chain'_nil
  | cons a t => exact smoothLoop_chain'_noMerge t a

theorem postProcess_id_of (l : List SpkInterval) (hs : List.Sorted startLE l)
    (hc : List.Chain' noSmoothMerge l) : postProcessDiarization l = l := by
  unfold postProcessDiarization
  rw [List.Sorted.insertionSort_eq hs]
  cases l with
  | nil => rfl
  | cons a t => exact smoothLoop_id t a hc

theorem mergeTurnsLoop_head : ∀ (l : List Seg) (c : Seg),
    ∃ x, (mergeTurnsLoop c l).head? = some x ∧ x.start = c.start ∧ x.speaker = c.speaker := by
  intro l
  induction l with
  | nil => exact fun c => ⟨c, rfl, rfl, rfl⟩
  | cons next rest ih =>
    intro c
    by_cases h : c.speaker = next.speaker ∧ next.start - c.stop < 2
    · rw [mergeTurnsLoop, if_pos h]
      exact ih _
    · rw [mergeTurnsLoop, if_neg h]
      exact ⟨c, rfl, rfl, rfl⟩

theorem mergeTurnsLoop_chain' : ∀ (l : List Seg) (c : Seg),
    List.Chain' noTurnMerge (mergeTurnsLoop c l) := by
  intro l
  induction l with
  | nil => intro c; rw [mergeTurnsLoop]; exact List.chain'_singleton c
  | cons next rest ih =>
    intro c
    by_cases h : c.speaker = next.speaker ∧ next.start - c.stop < 2
    · rw [mergeTurnsLoop, if_pos h]; exact ih _
    · rw [mergeTurnsLoop, if_neg h]
      refine List.chain'_cons'.mpr ⟨?_, ih next⟩
      intro y hy
      obtain ⟨x, hx, hxs, hxk⟩ := mergeTurnsLoop_head rest next
      rw [hx, Option.mem_some_iff] at hy
      subst hy
      intro hcon
      exact h ⟨hxk ▸ hcon.1, by rw [hxs] at hcon; exact hcon.2⟩

theorem mergeTurnsLoop_id : ∀ (l : List Seg) (c : Seg),
    List.Chain' noTurnMerge (c :: l) → mergeTurnsLoop c l = c :: l := by
  intro l
  induction l with
  | nil => intro c _; rw [mergeTurnsLoop]
  | cons next rest ih =>
    intro c hch
    obtain ⟨hcn, hrest⟩ := List.chain'_cons.mp hch
    rw [mergeTurnsLoop, if_neg hcn, ih next hrest]

theorem mergeConsecutive_chain' (l : List Seg) :
    List.Chain' noTurnMerge (mergeConsecutiveSpeakers l) := by
  cases l with
  | nil => exact List.chain'_nil
  | cons a t => exact mergeTurnsLoop_chain' t a

theorem mergeConsecutive_idem (l : List Seg) :
    mergeConsecutiveSpeakers (mergeConsecutiveSpeakers l) = mergeConsecutiveSpeakers l := by
  have hc := mergeConsecutive_chain' l
  cases h : mergeConsecutiveSpeakers l with
  | nil => rfl
  | cons a t =>
    rw [h] at hc
    exact mergeTurnsLoop_id t a hc

theorem rrStep_shape (acc : List Seg) (cur prev : Seg) (hl : acc.getLast? = some prev) :
    rrStep acc cur = acc ∨
    ∃ cur', rrStep acc cur = acc ++ [cur'] ∧
      1/10 < cur'.stop - cur'.start ∧
      cur'.stop - cur'.start ≤ cur.stop - cur.start ∧
      cur'.speaker = cur.speaker ∧
      acceptedApart prev cur' := by
  unfold rrStep
  rw [hl]
  dsimp only
  by_cases h1 : 0 < cur.stop - cur.start ∧
      max 0 (min prev.stop cur.stop - max prev.start cur.start) / (cur.stop - cur.start) > 4/5 ∧
      ∀ w ∈ pyWords cur.text.toLower, w ∈ pyWords prev.text.toLower
  · rw [if_pos h1]; exact Or.inl rfl
  · rw [if_neg h1]
    by_cases h2 : cur.start < prev.stop ∧
        max 0 (min prev.stop cur.stop - max prev.start cur.start) < 1
    · rw [if_pos h2]
      by_cases h3 : cur.stop - prev.stop > 1/10
      · rw [if_pos h3]
        refine Or.inr ⟨{ cur with start := prev.stop }, rfl, h3, ?_, rfl, Or.inl le_rfl⟩
        exact sub_le_sub_left (le_of_lt h2.1) cur.stop
      · rw [if_neg h3]; exact Or.inl rfl
    · rw [if_neg h2]
      by_cases h3 : cur.stop - cur.start > 1/10
      · rw [if_pos h3]
        refine Or.inr ⟨cur, rfl, h3, le_rfl, rfl, ?_⟩
        rcases not_and_or.mp h2 with hnl | hno
        · exact Or.inl (not_lt.mp hnl)
        · refine Or.inr ?_
          have h1le : (1 : ℚ) ≤ max 0 (min prev.stop cur.stop - max prev.start cur.start) :=
            not_lt.mp hno
          by_contra hcon
          exact absurd h1le (not_le.mpr (max_lt one_pos (not_le.mp hcon)))
      · rw [if_neg h3]; exact Or.inl rfl

theorem rr_foldl_chain' : ∀ (rest acc : List Seg),
    List.Chain' acceptedApart acc →
    List.Chain' acceptedApart (List.foldl rrStep acc rest) := by
  intro rest
  induction rest with
  | nil => exact fun acc h => h
  | cons x xs ih =>
    intro acc h
    refine ih _ ?_
    cases hl : acc.getLast? with
    | none =>
      have : acc = [] := List.getLast?_eq_none_iff.mp hl
      subst this
      exact List.chain'_singleton x
    | some prev =>
      rcases rrStep_shape acc x prev hl with h1 | ⟨c', he, _, _, _, hap⟩
      · rw [h1]; exact h
      · rw [he]
        refine List.chain'_append.mpr ⟨h, List.chain'_singleton c', ?_⟩
        intro a ha b hb
        rw [hl, Option.mem_some_iff] at ha
        simp only [List.head?_cons, Option.mem_some_iff] at hb
        subst ha; subst hb
        exact hap

theorem rr_chain' (l : List Seg) : List.Chain' acceptedApart (removeRedundant l) := by
  cases l with
  | nil => exact List.chain'_nil
  | cons s rest => exact rr_foldl_chain' rest [s] (List.chain'_singleton s)

theorem rr_foldl_tail_duration : ∀ (rest acc : List Seg),
    (∀ s ∈ acc.drop 1, 1/10 < s.stop - s.start) →
    ∀ s ∈ (List.foldl rrStep acc rest).drop 1, 1/10 < s.stop - s.start := by
  intro rest
  induction rest with
  | nil => exact fun acc h => h
  | cons x xs ih =>
    intro acc h
    refine ih _ ?_
    cases hl : acc.getLast? with
    | none =>
      have : acc = [] := List.getLast?_eq_none_iff.mp hl
      subst this
      intro s hs
      rw [show rrStep [] x = [x] from rfl] at hs
      simp at hs
    | some prev =>
      rcases rrStep_shape acc x prev hl with h1 | ⟨c', he, hd, _, _, _⟩
      · rw [h1]; exact h
      · rw [he]
        have hacc : acc ≠ [] := by
          intro hnil; subst hnil; simp at hl
        intro s hs
        rw [List.drop_append_of_le_length (by
          cases acc with
          | nil => exact absurd rfl hacc
          | cons a t => simp)] at hs
        rcases List.mem_append.mp hs with h' | h'
        · exact h s h'
        · rw [List.mem_singleton] at h'
          subst h'
          exact hd

theorem sumDurC_append (l : List Chunk) (x : Chunk) :
    sumDurC (l ++ [x]) = sumDurC l + (x.stop - x.start) := by
  unfold sumDurC
  rw [List.map_append, List.sum_append]
  simp

theorem sumDurS_append (l : List Seg) (x : Seg) :
    sumDurS (l ++ [x]) = sumDurS l + (x.stop - x.start) := by
  unfold sumDurS
  rw [List.map_append, List.sum_append]
  simp

theorem sumDurS_cons (s : Seg) (l : List Seg) :
    sumDurS (s :: l) = (s.stop - s.start) + sumDurS l := by
  unfold sumDurS
  simp

theorem mergeStep_shape (acc : List Chunk) (cur prev : Chunk)
    (hl : acc.getLast? = some prev) :
    mergeStep acc cur = acc ++ [cur] ∨
    (mergeStep acc cur = acc.dropLast ++
        [⟨prev.start, cur.stop, prev.text ++ " " ++
          joinSpace ((pyWords cur.text).drop (min 5 (pyWords prev.text).length))⟩] ∧
      cur.start < prev.stop) := by
  unfold mergeStep
  rw [hl]
  dsimp only
  by_cases h1 : cur.start < prev.stop
  · rw [if_pos h1]
    by_cases h2 : prev.stop - cur.start > (prev.stop - prev.start) * (1/2)
    · rw [if_pos h2]
      by_cases h3 : lastSlice (min 5 (pyWords prev.text).length) (pyWords prev.text) =
          (pyWords cur.text).take (min 5 (pyWords prev.text).length)
      · rw [if_pos h3]; exact Or.inr ⟨rfl, h1⟩
      · rw [if_neg h3]; exact Or.inl rfl
    · rw [if_neg h2]; exact Or.inl rfl
  · rw [if_neg h1]; exact Or.inl rfl

theorem mergeStep_stitch (acc : List Chunk) (cur prev : Chunk)
    (hl : acc.getLast? = some prev)
    (hov : cur.start < prev.stop)
    (hf : prev.stop - cur.start > (prev.stop - prev.start) * (1/2))
    (hw : lastSlice (min 5 (pyWords prev.text).length) (pyWords prev.text) =
      (pyWords cur.text).take (min 5 (pyWords prev.text).length)) :
    mergeStep acc cur = acc.dropLast ++
      [⟨prev.start, cur.stop, prev.text ++ " " ++
        joinSpace ((pyWords cur.text).drop (min 5 (pyWords prev.text).length))⟩] := by
  unfold mergeStep
  rw [hl]
  dsimp only
  rw [if_pos hov, if_pos hf, if_pos hw]

theorem sumDurC_decomp (acc : List Chunk) (prev : Chunk) (hl : acc.getLast? = some prev) :
    sumDurC acc = sumDurC acc.dropLast + (prev.stop - prev.start) := by
  conv_lhs => rw [← List.dropLast_append_getLast? prev hl]
  exact sumDurC_append _ _

theorem mergeStep_sum (acc : List Chunk) (cur : Chunk) :
    sumDurC (mergeStep acc cur) ≤ sumDurC acc + (cur.stop - cur.start) := by
  cases hl : acc.getLast? with
  | none =>
    have : acc = [] := List.getLast?_eq_none_iff.mp hl
    subst this
    rw [show mergeStep [] cur = [cur] from rfl]
    unfold sumDurC
    simp
  | some prev =>
    rcases mergeStep_shape acc cur prev hl with h | ⟨h, hov⟩
    · rw [h, sumDurC_append]
    · rw [h, sumDurC_append, sumDurC_decomp acc prev hl]
      dsimp only
      linarith

theorem merge_foldl_sum : ∀ (rest acc : List Chunk),
    sumDurC (List.foldl mergeStep acc rest) ≤ sumDurC acc + sumDurC rest := by
  intro rest
  induction rest with
  | nil => intro acc; unfold sumDurC; simp
  | cons x xs ih =>
    intro acc
    have h1 := ih (mergeStep acc x)
    have h2 := mergeStep_sum acc x
    have h3 : sumDurC (x :: xs) = (x.stop - x.start) + sumDurC xs := by
      unfold sumDurC; simp
    rw [List.foldl_cons]
    linarith

theorem merge_sum (l : List Chunk) : sumDurC (mergeOverlappingChunks l) ≤ sumDurC l := by
  cases l with
  | nil => exact le_refl _
  | cons c rest =>
    have h1 := merge_foldl_sum rest [c]
    have h2 : sumDurC (c :: rest) = sumDurC [c] + sumDurC rest := by
      unfold sumDurC; simp
    rw [show mergeOverlappingChunks (c :: rest) = List.foldl mergeStep [c] rest from rfl]
    linarith

theorem merge_foldl_nonneg : ∀ (rest acc : List Chunk) (prev : Chunk),
    acc.getLast? = some prev →
    (∀ c ∈ acc, c.start ≤ c.stop) →
    (∀ r ∈ rest, prev.start ≤ r.start ∧ r.start ≤ r.stop) →
    List.Pairwise (fun a b : Chunk => a.start ≤ b.start) rest →
    ∀ c ∈ List.foldl mergeStep acc rest, c.start ≤ c.stop := by
  intro rest
  induction rest with
  | nil => intro acc prev _ hacc _ _; exact hacc
  | cons x xs ih =>
    intro acc prev hl hacc hrest hpw
    obtain ⟨hpx, hxx⟩ := hrest x (List.mem_cons_self x xs)
    rw [List.foldl_cons]
    rcases mergeStep_shape acc x prev hl with h | ⟨h, _⟩
    · rw [h]
      refine ih (acc ++ [x]) x ?_ ?_ ?_ (List.Pairwise.sublist (List.sublist_cons_self x xs) hpw)
      · simp
      · intro c hc
        rcases List.mem_append.mp hc with h' | h'
        · exact hacc c h'
        · rw [List.mem_singleton] at h'; subst h'; exact hxx
      · intro r hr
        refine ⟨List.rel_of_pairwise_cons hpw hr, (hrest r (List.mem_cons_of_mem x hr)).2⟩
    · rw [h]
      refine ih _ ⟨prev.start, x.stop, prev.text ++ " " ++
          joinSpace ((pyWords x.text).drop (min 5 (pyWords prev.text).length))⟩
        ?_ ?_ ?_ (List.Pairwise.sublist (List.sublist_cons_self x xs) hpw)
      · simp
      · intro c hc
        rcases List.mem_append.mp hc with h' | h'
        · exact hacc c ((List.dropLast_sublist acc).subset h')
        · rw [List.mem_singleton] at h'; subst h'
          exact le_trans hpx hxx
      · intro r hr
        exact ⟨(hrest r (List.mem_cons_of_mem x hr)).1, (hrest r (List.mem_cons_of_mem x hr)).2⟩

theorem merge_nonneg (l : List Chunk)
    (hs : List.Pairwise (fun a b : Chunk => a.start ≤ b.start) l)
    (hn : ∀ c ∈ l, c.start ≤ c.stop) :
    ∀ c ∈ mergeOverlappingChunks l, c.start ≤ c.stop := by
  cases l with
  | nil => intro c hc; simp [mergeOverlappingChunks] at hc
  | cons c0 rest =>
    refine merge_foldl_nonneg rest [c0] c0 rfl ?_ ?_
      (List.Pairwise.sublist (List.sublist_cons_self c0 rest) hs)
    · intro x hx; rw [List.mem_singleton] at hx; subst hx
      exact hn x (List.mem_cons_self x rest)
    · intro r hr
      exact ⟨List.rel_of_pairwise_cons hs hr, hn r (List.mem_cons_of_mem c0 hr)⟩

theorem align_sum : ∀ (chunks : List Chunk) (ivs : List SpkInterval),
    (∀ c ∈ chunks, c.start ≤ c.stop) →
    sumDurS (alignChunks chunks ivs) ≤ sumDurC chunks := by
  intro chunks
  induction chunks with
  | nil => intro ivs _; rw [show alignChunks [] ivs = [] from rfl]; exact le_refl _
  | cons c rest ih =>
    intro ivs hn
    have hrest := fun x hx => hn x (List.mem_cons_of_mem c hx)
    have hc0 : 0 ≤ c.stop - c.start := by
      have := hn c (List.mem_cons_self c rest); linarith
    have hcons : sumDurC (c :: rest) = (c.stop - c.start) + sumDurC rest := by
      unfold sumDurC; simp
    rw [alignChunks]
    by_cases h : c.stop - c.start ≤ 0
    · rw [if_pos h]
      have := ih ivs hrest
      linarith
    · rw [if_neg h]
      dsimp only
      rw [sumDurS_cons]
      dsimp only
      have := ih ivs hrest
      linarith

theorem align_pos : ∀ (chunks : List Chunk) (ivs : List SpkInterval),
    ∀ s ∈ alignChunks chunks ivs, 0 < s.stop - s.start := by
  intro chunks
  induction chunks with
  | nil =>
    intro ivs s hs
    rw [show alignChunks [] ivs = [] from rfl] at hs
    simp at hs
  | cons c rest ih =>
    intro ivs s hs
    rw [alignChunks] at hs
    by_cases h : c.stop - c.start ≤ 0
    · rw [if_pos h] at hs
      exact ih ivs s hs
    · rw [if_neg h] at hs
      dsimp only at hs
      rcases List.mem_cons.mp hs with h' | h'
      · subst h'
        dsimp only
        linarith [not_le.mp h]
      · exact ih ivs s h'

theorem align_speaker_nil : ∀ (chunks : List Chunk),
    ∀ s ∈ alignChunks chunks [], s.speaker = "SPEAKER_00" := by
  intro chunks
  induction chunks with
  | nil =>
    intro s hs
    rw [show alignChunks [] [] = [] from rfl] at hs
    simp at hs
  | cons c rest ih =>
    intro s hs
    rw [alignChunks] at hs
    by_cases h : c.stop - c.start ≤ 0
    · rw [if_pos h] at hs
      exact ih s hs
    · rw [if_neg h] at hs
      dsimp only at hs
      rcases List.mem_cons.mp hs with h' | h'
      · subst h'; rfl
      · exact ih s h'

theorem sort_sumDurS (l : List Seg) :
    sumDurS (List.insertionSort segLE l) = sumDurS l := by
  unfold sumDurS
  exact List.Perm.sum_eq (List.Perm.map _ (List.perm_insertionSort segLE l))

theorem sort_mem (l : List Seg) (s : Seg) :
    s ∈ List.insertionSort segLE l ↔ s ∈ l :=
  (List.perm_insertionSort segLE l).mem_iff

theorem rrStep_sum (acc : List Seg) (cur : Seg) (hd : 0 ≤ cur.stop - cur.start) :
    sumDurS (rrStep acc cur) ≤ sumDurS acc + (cur.stop - cur.start) := by
  cases hl : acc.getLast? with
  | none =>
    have : acc = [] := List.getLast?_eq_none_iff.mp hl
    subst this
    rw [show rrStep [] cur = [cur] from rfl]
    unfold sumDurS
    simp
  | some prev =>
    rcases rrStep_shape acc cur prev hl with h | ⟨c', he, _, hle, _, _⟩
    · rw [h]; linarith
    · rw [he, sumDurS_append]; linarith

theorem rr_foldl_sum : ∀ (rest acc : List Seg),
    (∀ s ∈ rest, 0 ≤ s.stop - s.start) →
    sumDurS (List.foldl rrStep acc rest) ≤ sumDurS acc + sumDurS rest := by
  intro rest
  induction rest with
  | nil => intro acc _; unfold sumDurS; simp
  | cons x xs ih =>
    intro acc h
    have h1 := ih (rrStep acc x) (fun s hs => h s (List.mem_cons_of_mem x hs))
    have h2 := rrStep_sum acc x (h x (List.mem_cons_self x xs))
    have h3 : sumDurS (x :: xs) = (x.stop - x.start) + sumDurS xs := by
      unfold sumDurS; simp
    rw [List.foldl_cons]
    linarith

theorem rr_sum (l : List Seg) (h : ∀ s ∈ l, 0 ≤ s.stop - s.start) :
    sumDurS (removeRedundant l) ≤ sumDurS l := by
  cases l with
  | nil => exact le_refl _
  | cons a rest =>
    have h1 := rr_foldl_sum rest [a] (fun s hs => h s (List.mem_cons_of_mem a hs))
    have h2 : sumDurS (a :: rest) = sumDurS [a] + sumDurS rest := by
      unfold sumDurS; simp
    rw [show removeRedundant (a :: rest) = List.foldl rrStep [a] rest from rfl]
    linarith

theorem rr_foldl_speaker (v : String) : ∀ (rest acc : List Seg),
    (∀ s ∈ acc, s.speaker = v) → (∀ s ∈ rest, s.speaker = v) →
    ∀ s ∈ List.foldl rrStep acc rest, s.speaker = v := by
  intro rest
  induction rest with
  | nil => exact fun acc hacc _ => hacc
  | cons x xs ih =>
    intro acc hacc h
    rw [List.foldl_cons]
    refine ih _ ?_ (fun s hs => h s (List.mem_cons_of_mem x hs))
    cases hl : acc.getLast? with
    | none =>
      have : acc = [] := List.getLast?_eq_none_iff.mp hl
      subst this
      rw [show rrStep [] x = [x] from rfl]
      intro s hs
      rw [List.mem_singleton] at hs
      rw [hs]
      exact h x (List.mem_cons_self x xs)
    | some prev =>
      rcases rrStep_shape acc x prev hl with h' | ⟨c', he, _, _, hspk, _⟩
      · rw [h']; exact hacc
      · rw [he]
        intro s hs
        rcases List.mem_append.mp hs with h'' | h''
        · exact hacc s h''
        · rw [List.mem_singleton] at h''; subst h''
          rw [hspk]
          exact h x (List.mem_cons_self x xs)

theorem rr_speaker (v : String) (l : List Seg) (h : ∀ s ∈ l, s.speaker = v) :
    ∀ s ∈ removeRedundant l, s.speaker = v := by
  cases l with
  | nil =>
    intro s hs
    rw [show removeRedundant [] = [] from rfl] at hs
    simp at hs
  | cons a rest =>
    refine rr_foldl_speaker v rest [a] ?_ (fun s hs => h s (List.mem_cons_of_mem a hs))
    intro s hs
    rw [List.mem_singleton] at hs; subst hs
    exact h s (List.mem_cons_self s rest)

theorem mergeTurnsLoop_speaker (v : String) : ∀ (l : List Seg) (c : Seg),
    c.speaker = v → (∀ s ∈ l, s.speaker = v) →
    ∀ s ∈ mergeTurnsLoop c l, s.speaker = v := by
  intro l
  induction l with
  | nil =>
    intro c hc _ s hs
    rw [mergeTurnsLoop, List.mem_singleton] at hs
    subst hs; exact hc
  | cons next rest ih =>
    intro c hc h
    by_cases hm : c.speaker = next.speaker ∧ next.start - c.stop < 2
    · rw [mergeTurnsLoop, if_pos hm]
      exact ih _ hc (fun s hs => h s (List.mem_cons_of_mem next hs))
    · rw [mergeTurnsLoop, if_neg hm]
      intro s hs
      rcases List.mem_cons.mp hs with h' | h'
      · subst h'; exact hc
      · exact ih next (h next (List.mem_cons_self next rest))
          (fun s hs => h s (List.mem_cons_of_mem next hs)) s h'

theorem mergeConsecutive_speaker (v : String) (l : List Seg)
    (h : ∀ s ∈ l, s.speaker = v) :
    ∀ s ∈ mergeConsecutiveSpeakers l, s.speaker = v := by
  cases l with
  | nil =>
    intro s hs
    rw [show mergeConsecutiveSpeakers [] = [] from rfl] at hs
    simp at hs
  | cons a rest =>
    exact mergeTurnsLoop_speaker v rest a (h a (List.mem_cons_self a rest))
      (fun s hs => h s (List.mem_cons_of_mem a hs))

theorem rr_tail_duration (l : List Seg) :
    ∀ s ∈ (removeRedundant l).drop 1, 1/10 < s.stop - s.start := by
  cases l with
  | nil =>
    intro s hs
    rw [show removeRedundant [] = [] from rfl] at hs
    simp at hs
  | cons a rest =>
    exact rr_foldl_tail_duration rest [a] (by intro s hs; simp at hs)

/-- C1 (counterexample): on Scenario 1's chunks `(0,10,"hello world how are
you")` and `(8,18,"how are you today friend")` the Chunk Merger does NOT
return the single merged chunk the claim states: the overlap (2 s) is not
more than half of `prev`'s duration (5 s) and the two 5-word boundaries
differ, so both chunks are returned unchanged. -/
theorem C1_counterexample :
    mergeOverlappingChunks
        [⟨0, 10, "hello world how are you"⟩, ⟨8, 18, "how are you today friend"⟩] =
      [⟨0, 10, "hello world how are you"⟩, ⟨8, 18, "how are you today friend"⟩] ∧
    mergeOverlappingChunks
        [⟨0, 10, "hello world how are you"⟩, ⟨8, 18, "how are you today friend"⟩] ≠
      [⟨0, 18, "hello world how are you today friend"⟩] := by
  constructor
  · decide
  · decide

/-- C1 (amended): the general stitching rule holds: for an accumulated last
chunk `prev` and an incoming `cur` with `cur.start < prev.end`, overlap above
half of `prev`'s duration, and the last `k = min(5, word_count(prev))` words
of `prev.text` equal to the first `k` words of `cur.text`, the merger
replaces `prev` by `(prev.start, cur.end)` carrying `prev.text` plus only
`cur`'s words beyond the matched prefix; Scenario 1's concrete input does not
satisfy the overlap/boundary conditions and is left as two chunks. -/
theorem C1_amended_stitch (acc : List Chunk) (cur prev : Chunk)
    (hl : acc.getLast? = some prev)
    (hov : cur.start < prev.stop)
    (hf : prev.stop - cur.start > (prev.stop - prev.start) * (1/2))
    (hw : lastSlice (min 5 (pyWords prev.text).length) (pyWords prev.text) =
      (pyWords cur.text).take (min 5 (pyWords prev.text).length)) :
    mergeStep acc cur = acc.dropLast ++
      [⟨prev.start, cur.stop, prev.text ++ " " ++
        joinSpace ((pyWords cur.text).drop (min 5 (pyWords prev.text).length))⟩] :=
  mergeStep_stitch acc cur prev hl hov hf hw

/-- C1 (witness): the stitching rule applied at a concrete input where all
its hypotheses hold. -/
theorem C1_witness :
    mergeStep [⟨0, 10, "a b c"⟩] ⟨2, 12, "a b c d"⟩ =
      [⟨0, 10, "a b c"⟩].dropLast ++
        [⟨0, 12, "a b c" ++ " " ++
          joinSpace ((pyWords "a b c d").drop (min 5 (pyWords "a b c").length))⟩] :=
  C1_amended_stitch [⟨0, 10, "a b c"⟩] ⟨2, 12, "a b c d"⟩ ⟨0, 10, "a b c"⟩
    rfl (by decide) (by decide) (by decide)

/-- C2 (counterexample): the full pipeline can output two truly overlapping
distinct segments: aligning chunks `(0,10,"a")`, `(5,20,"b")` with speaker
intervals `(0,10,S0)`, `(10,20,S1)` keeps both segments (overlap 5 s is not a
sub-1.0 s drift, nor an 80 % duplicate), so `o[1].start = 5 < 10 = o[0].end`
with `o[0] ≠ o[1]`. -/
theorem C2_counterexample :
    pipeline [⟨0, 10, "a"⟩, ⟨5, 20, "b"⟩] [⟨0, 10, "S0"⟩, ⟨10, 20, "S1"⟩] =
      [⟨0, 10, "S0", "a"⟩, ⟨5, 20, "S1", "b"⟩] ∧
    ¬((⟨5, 20, "S1", "b"⟩ : Seg).start ≥ (⟨0, 10, "S0", "a"⟩ : Seg).stop) ∧
    (⟨0, 10, "S0", "a"⟩ : Seg) ≠ (⟨5, 20, "S1", "b"⟩ : Seg) := by
  refine ⟨by decide, by decide, by decide⟩

/-- C2 (amended): after the Redundancy Remover (the pipeline before turn
merging), consecutive segments are either time-monotone
(`next.start ≥ prev.end`) or overlap by at least 1.0 s — only sub-1.0 s
drifts are clamped, larger overlaps are kept as simultaneous speech; full
monotonicity of the final output does not hold. -/
theorem C2_amended_apart (chunks : List Chunk) (ivs : List SpkInterval) :
    List.Chain' acceptedApart (preTurn chunks ivs) :=
  rr_chain' _

/-- C3 (counterexample): the Turn Merger can fabricate coverage by absorbing
sub-2.0 s gaps: chunks `(0,5,"x")`, `(6,7,"y")` with one speaker interval
`(0,7,"A")` produce the single turn `(0,7)`, total duration 7 > 6 = total
input duration. -/
theorem C3_counterexample :
    sumDurC [⟨0, 5, "x"⟩, ⟨6, 7, "y"⟩] <
      sumDurS (pipeline [⟨0, 5, "x"⟩, ⟨6, 7, "y"⟩] [⟨0, 7, "A"⟩]) := by
  decide

/-- C3 (amended): before the Turn Merger the coverage bound holds: for chunk
lists sorted by start whose chunks all satisfy `start ≤ end` (the shape the
transcriber produces), the total duration after chunk merging, alignment,
sorting and redundancy removal never exceeds the total input duration.  The
final Turn Merger may exceed the bound by absorbing inter-segment gaps
shorter than 2.0 s. -/
theorem C3_amended_coverage (chunks : List Chunk) (ivs : List SpkInterval)
    (hs : List.Pairwise (fun a b : Chunk => a.start ≤ b.start) chunks)
    (hn : ∀ c ∈ chunks, c.start ≤ c.stop) :
    sumDurS (preTurn chunks ivs) ≤ sumDurC chunks := by
  have hM := merge_nonneg chunks hs hn
  have h1 : sumDurC (mergeOverlappingChunks chunks) ≤ sumDurC chunks := merge_sum chunks
  have h2 : sumDurS (alignChunks (mergeOverlappingChunks chunks)
      (postProcessDiarization ivs)) ≤ sumDurC (mergeOverlappingChunks chunks) :=
    align_sum _ _ hM
  have h3 := sort_sumDurS (alignChunks (mergeOverlappingChunks chunks)
    (postProcessDiarization ivs))
  have h4 : ∀ s ∈ List.insertionSort segLE (alignChunks (mergeOverlappingChunks chunks)
      (postProcessDiarization ivs)), 0 ≤ s.stop - s.start := by
    intro s hs'
    have := align_pos _ _ s ((sort_mem _ s).mp hs')
    linarith
  have h5 := rr_sum _ h4
  unfold preTurn
  linarith

/-- C3 (witness): the coverage bound applied at a concrete sorted, well-formed
input. -/
theorem C3_witness :
    sumDurS (preTurn [⟨0, 5, "x"⟩, ⟨6, 7, "y"⟩] [⟨0, 7, "A"⟩]) ≤
      sumDurC [⟨0, 5, "x"⟩, ⟨6, 7, "y"⟩] :=
  C3_amended_coverage [⟨0, 5, "x"⟩, ⟨6, 7, "y"⟩] [⟨0, 7, "A"⟩]
    (by decide) (by decide)

/-- C4 (counterexample): an empty speaker-interval list with a non-empty
chunk list does NOT yield an empty transcript: the chunk is kept and labelled
with the default sentinel `SPEAKER_00`. -/
theorem C4_counterexample :
    pipeline [⟨0, 5, "x"⟩] [] = [⟨0, 5, "SPEAKER_00", "x"⟩] ∧
    pipeline [⟨0, 5, "x"⟩] [] ≠ [] := by
  refine ⟨by decide, by decide⟩

/-- C4 (amended): an empty chunk list yields an empty transcript for any
interval list, and no invocation raises an error (the pipeline is a total
function); an empty interval list does not empty the transcript — instead
every produced segment carries the default sentinel speaker `SPEAKER_00`. -/
theorem C4_amended_empty :
    (∀ ivs : List SpkInterval, pipeline [] ivs = []) ∧
    (∀ (chunks : List Chunk) (s : Seg), s ∈ pipeline chunks [] →
      s.speaker = "SPEAKER_00") := by
  constructor
  · intro ivs; rfl
  · intro chunks s hs
    unfold pipeline at hs
    rw [show postProcessDiarization ([] : List SpkInterval) = [] from rfl] at hs
    have hA := align_speaker_nil (mergeOverlappingChunks chunks)
    have hS : ∀ t ∈ List.insertionSort segLE
        (alignChunks (mergeOverlappingChunks chunks) []), t.speaker = "SPEAKER_00" :=
      fun t ht => hA t ((sort_mem _ t).mp ht)
    have hR := rr_speaker _ _ hS
    exact mergeConsecutive_speaker _ _ hR s hs

/-- C4 (witness): the sentinel-label part applied at a concrete non-empty
chunk list with no intervals. -/
theorem C4_witness :
    (⟨0, 5, "SPEAKER_00", "x"⟩ : Seg) ∈ pipeline [⟨0, 5, "x"⟩] [] ∧
    (⟨0, 5, "SPEAKER_00", "x"⟩ : Seg).speaker = "SPEAKER_00" :=
  ⟨by decide, C4_amended_empty.2 [⟨0, 5, "x"⟩] ⟨0, 5, "SPEAKER_00", "x"⟩ (by decide)⟩

/-- C5: the Diarization Smoother sorts by start and merges adjacent
same-speaker intervals with gaps under 1.0 s, never across a speaker change:
`[(0,5,A),(5.5,9,A),(9,15,B)]` smooths to `[(0,9,A),(9,15,B)]`, also when the
input arrives unsorted. -/
theorem C5_smoothing_scenario :
    postProcessDiarization [⟨0, 5, "A"⟩, ⟨11/2, 9, "A"⟩, ⟨9, 15, "B"⟩] =
      [⟨0, 9, "A"⟩, ⟨9, 15, "B"⟩] ∧
    postProcessDiarization [⟨9, 15, "B"⟩, ⟨0, 5, "A"⟩, ⟨11/2, 9, "A"⟩] =
      [⟨0, 9, "A"⟩, ⟨9, 15, "B"⟩] := by
  refine ⟨by decide, by decide⟩

/-- C6: the Diarization Smoother is idempotent: applying it to its own output
changes nothing — after one pass no adjacent same-speaker pair has a gap
below 1.0 s, and the output is already sorted. -/
theorem C6_smoothing_idempotent (l : List SpkInterval) :
    postProcessDiarization (postProcessDiarization l) = postProcessDiarization l :=
  postProcess_id_of _ (postProcess_sorted l) (postProcess_chain'_noMerge l)

/-- C7 (counterexample): the synthetic chunk is NOT emitted exactly when no
timestamp markers were parsed: in `"<|5.00|> hello <|3.00|>"` two markers are
parsed, yet every sub-chunk is filtered out (inverted time range, empty
text), so the synthetic fallback fires anyway; conversely the repetition
pre-check can suppress the fallback even with no markers at all. -/
theorem C7_counterexample :
    parseWhisperOutput "<|5.00|> hello <|3.00|>" = [⟨0, 2, "hello"⟩] ∧
    (reSplitTimestamps "<|5.00|> hello <|3.00|>").2 ≠ [] ∧
    parseWhisperOutput "hi hi hi hi hi hi hi hi hi hi hi" = [] ∧
    cleanTextOf "hi hi hi hi hi hi hi hi hi hi hi" ≠ "" ∧
    (cleanTextOf "hi hi hi hi hi hi hi hi hi hi hi").length < 200 := by
  refine ⟨by decide, by decide, by decide, by decide, by decide⟩

/-- C7 (amended): whenever no parsed sub-chunk survives filtering (in
particular when no timestamp marker parses at all, but also when markers
parse and every sub-chunk is filtered out), the repetition pre-check did not
fire, and the marker-stripped trimmed text is non-empty and shorter than 200
characters, the filter emits exactly the synthetic chunk
`(0.0, 2.0, clean_text)`; surviving-chunk-free text of 200 or more
characters is dropped. -/
theorem C7_amended_fallback (text : String) :
    (buildChunks (reSplitTimestamps text).2 = [] → ¬hallucinationLoop text →
      cleanTextOf text ≠ "" → (cleanTextOf text).length < 200 →
      parseWhisperOutput text = [⟨0, 2, cleanTextOf text⟩]) ∧
    (buildChunks (reSplitTimestamps text).2 = [] → 200 ≤ (cleanTextOf text).length →
      parseWhisperOutput text = []) := by
  have hbe : (List.isEmpty ([] : List Chunk)) = true := rfl
  constructor
  · intro hc hh hne hlen
    unfold parseWhisperOutput
    rw [if_neg hh]
    dsimp only
    rw [hc, if_pos hbe, if_pos ⟨hne, hlen⟩]
  · intro hc hlen
    unfold parseWhisperOutput
    by_cases hh : hallucinationLoop text
    · rw [if_pos hh]
    · rw [if_neg hh]
      dsimp only
      rw [hc, if_pos hbe, if_neg]
      intro hcon
      exact absurd hcon.2 (not_lt.mpr hlen)

/-- C7 (witness): the fallback applied at a concrete input in which
timestamp markers DO parse but every sub-chunk is filtered out — the
trigger the no-marker reading of the claim misses. -/
theorem C7_witness :
    parseWhisperOutput "<|5.00|> hello <|3.00|>" =
      [⟨0, 2, cleanTextOf "<|5.00|> hello <|3.00|>"⟩] :=
  (C7_amended_fallback "<|5.00|> hello <|3.00|>").1
    (by decide) (by decide) (by decide) (by decide)

/-- C8 (counterexample): the first input segment is accepted unconditionally,
so the Redundancy Remover's output can contain a segment of duration
`0.05 ≤ 0.1` s — the claim's "including the first one" fails. -/
theorem C8_counterexample :
    removeRedundant [⟨0, 1/20, "A", "x"⟩] = [⟨0, 1/20, "A", "x"⟩] ∧
    ¬(1/10 < (⟨0, 1/20, "A", "x"⟩ : Seg).stop - (⟨0, 1/20, "A", "x"⟩ : Seg).start) := by
  refine ⟨by decide, by decide⟩

/-- C8 (amended): every segment of the Redundancy Remover's output except
possibly the first has final `end - start` strictly greater than 0.1 s (a
segment whose duration after clamping is at most 0.1 s is discarded); the
first input segment is exempt because it is seeded unconditionally. -/
theorem C8_amended_min_duration (l : List Seg) (s : Seg)
    (hs : s ∈ (removeRedundant l).drop 1) :
    1/10 < s.stop - s.start :=
  rr_tail_duration l s hs

/-- C8 (witness): the minimum-duration guarantee applied at a concrete
two-segment input whose second segment survives. -/
theorem C8_witness :
    1/10 < (⟨0, 5, "A", "b"⟩ : Seg).stop - (⟨0, 5, "A", "b"⟩ : Seg).start :=
  C8_amended_min_duration [⟨0, 0, "A", "a"⟩, ⟨0, 5, "A", "b"⟩]
    ⟨0, 5, "A", "b"⟩ (by decide)

/-- C9 (counterexample): with an accumulated chunk of empty text, a strongly
overlapping incoming chunk is NOT appended as a separate chunk: the 0-word
boundary matches vacuously (`prev_words[-0:] == cur_words[:0]` is
`[] == []`), so the merger stitches, extending `prev.end` to `cur.end` and
producing the single chunk `(0, 12, " hi")`. -/
theorem C9_counterexample :
    mergeOverlappingChunks [⟨0, 10, ""⟩, ⟨2, 12, "hi"⟩] = [⟨0, 12, " hi"⟩] ∧
    mergeOverlappingChunks [⟨0, 10, ""⟩, ⟨2, 12, "hi"⟩] ≠
      [⟨0, 10, ""⟩, ⟨2, 12, "hi"⟩] := by
  refine ⟨by decide, by decide⟩

/-- C9 (amended): for an accumulated `prev` with empty text and an incoming
`cur` with `cur.start < prev.end` and overlap above half of `prev`'s
duration, the merger stitches with a matched prefix of `k = 0` words: `prev`
becomes `(prev.start, cur.end)` with text a single space followed by `cur`'s
words, and `cur` is not appended separately. -/
theorem C9_amended_stitch_empty (acc : List Chunk) (cur prev : Chunk)
    (hl : acc.getLast? = some prev)
    (hp : prev.text = "")
    (hov : cur.start < prev.stop)
    (hf : prev.stop - cur.start > (prev.stop - prev.start) * (1/2)) :
    mergeStep acc cur = acc.dropLast ++
      [⟨prev.start, cur.stop, " " ++ joinSpace (pyWords cur.text)⟩] := by
  have hw : lastSlice (min 5 (pyWords prev.text).length) (pyWords prev.text) =
      (pyWords cur.text).take (min 5 (pyWords prev.text).length) := by
    rw [hp]
    rfl
  have h := mergeStep_stitch acc cur prev hl hov hf hw
  rw [h, hp]
  rfl

/-- C9 (witness): the empty-prev stitch applied at a concrete input. -/
theorem C9_witness :
    mergeStep [⟨0, 10, ""⟩] ⟨2, 12, "hi"⟩ =
      [⟨0, 10, ""⟩].dropLast ++ [⟨0, 12, " " ++ joinSpace (pyWords "hi")⟩] :=
  C9_amended_stitch_empty [⟨0, 10, ""⟩] ⟨2, 12, "hi"⟩ ⟨0, 10, ""⟩
    rfl rfl (by decide) (by decide)

/-- C10: in the Turn Merger's output any two consecutive segments sharing a
speaker are at least 2.0 s apart, and equivalently the Turn Merger is
idempotent on its own output. -/
theorem C10_turn_merger_exhaustive :
    (∀ l : List Seg, List.Chain'
      (fun a b => a.speaker = b.speaker → 2 ≤ b.start - a.stop)
      (mergeConsecutiveSpeakers l)) ∧
    (∀ l : List Seg,
      mergeConsecutiveSpeakers (mergeConsecutiveSpeakers l) =
        mergeConsecutiveSpeakers l) := by
  constructor
  · intro l
    refine (mergeConsecutive_chain' l).imp ?_
    intro a b h hsp
    by_contra hlt
    exact h ⟨hsp, not_le.mp hlt⟩
  · exact mergeConsecutive_idem
